import Mathlib

/-!
Shallow embedding of the ChoreNet chore-instance lifecycle engine
(source: src/__init__.py, src/switch.py, src/const.py).

Modelling conventions:
- Python dicts become association lists (List (String × _)) with
  insertion-order-preserving assignment (update in place when the key
  exists, append otherwise) and key lookup, matching dict semantics.
- datetime values become a pair of an integer day ordinal (days since a
  fixed Monday epoch, so weekday = day mod 7 with Monday = 0, exactly
  Python's datetime.weekday convention) and a minute-of-day.  Truncation
  to midnight (replace(hour=0, minute=0, ...)) sets the minute to 0;
  timedelta(days=k) adds k to the day ordinal; date() projects the day
  ordinal; comparison is lexicographic on (day, minute).
- Python string comparison on HH:MM window strings is lexicographic on
  code points; charLex below is the same order on the character lists.
- The instance key f"{chore_id}_{due.date().isoformat()}" becomes
  chore_id ++ "_" ++ toString day; like the ISO date, the day ordinal
  rendering contains no underscore, so the key determines the pair.
- Records follow the documented data model (spec section 3): a chore
  instance always carries its five fields, so Python truthiness of an
  instance dict (if not instance) coincides with presence in the store
  and is modelled by Option.
- The recurrence rule covers the daily and weekly variants exercised by
  the claims; the monthly branch of _calculate_next_due_date needs
  calendar month arithmetic outside this date model and no claim
  mentions it.
- Event-bus firings become an explicit list of Event values returned
  alongside the mutated state; the best-effort automation triggers and
  the persistence write, which touch no engine state, are not modelled.
-/

namespace ChoreNet

/-- Lexicographic order on character lists by code point; this is the
order Python uses for its string comparison operators. -/
def charLex : List Char → List Char → Bool
  | [], _ => true
  | _ :: _, [] => false
  | c :: cs, d :: ds =>
    if c.toNat < d.toNat then true
    else if d.toNat < c.toNat then false
    else charLex cs ds

/-- Python string less-or-equal (start_time <= current_time in
_is_in_time_window). -/
def strLe (a b : String) : Bool := charLex a.data b.data

/-- Two-digit zero padding, as used by strftime for hours and minutes. -/
def pad2 (n : Nat) : String := if n < 10 then "0" ++ toString n else toString n

/-- A point in time: day ordinal since a Monday epoch plus minute of day. -/
structure DateTime where
  day : Int
  minute : Nat
deriving DecidableEq, Repr

/-- Python datetime.weekday(): 0 = Monday .. 6 = Sunday. -/
def DateTime.weekday (t : DateTime) : Int := t.day % 7

/-- replace(hour=0, minute=0, second=0, microsecond=0). -/
def DateTime.midnight (t : DateTime) : DateTime := ⟨t.day, 0⟩

/-- now + timedelta(days=k). -/
def DateTime.addDays (t : DateTime) (k : Int) : DateTime := ⟨t.day + k, t.minute⟩

/-- datetime ordering, lexicographic on (day, minute). -/
def DateTime.le (a b : DateTime) : Bool :=
  a.day < b.day || (a.day == b.day && a.minute ≤ b.minute)

/-- now.strftime("%H:%M"). -/
def DateTime.hhmm (t : DateTime) : String :=
  pad2 (t.minute / 60) ++ ":" ++ pad2 (t.minute % 60)

/-- dict lookup: m.get(k) / m[k] guarded by membership. -/
def lookup (m : List (String × α)) (k : String) : Option α :=
  match m with
  | [] => none
  | (k', v) :: rest => if k' = k then some v else lookup rest k

/-- dict lookup with default: m.get(k, d). -/
def lookupD (m : List (String × α)) (k : String) (d : α) : α :=
  (lookup m k).getD d

/-- dict assignment m[k] = v: replaces in place when the key exists,
appends otherwise (Python dicts preserve insertion order). -/
def setKey (m : List (String × α)) (k : String) (v : α) : List (String × α) :=
  match m with
  | [] => [(k, v)]
  | (k', v') :: rest =>
    if k' = k then (k, v) :: rest else (k', v') :: setKey rest k v

/-- dict .values(). -/
def valuesOf (m : List (String × α)) : List α := m.map Prod.snd

/-- Chore lifecycle status (CHORE_STATUS_* in const.py). -/
inductive Status where
  | inactive
  | pending
  | overdue
  | completed
deriving DecidableEq, Repr

/-- Time-of-day period of a chore (CHORE_PERIOD_* in const.py). -/
inductive Period where
  | morning
  | afternoon
  | evening
  | all_day
deriving DecidableEq, Repr

/-- Recurrence rule (the daily and weekly variants of the data model;
weekday 0 = Monday, from recurrence.get("weekday", 0)). -/
inductive Recurrence where
  | daily
  | weekly (weekday : Int)
deriving DecidableEq, Repr

/-- Per-person time windows (person["time_windows"]); a missing entry
falls back to the documented default at the read site. -/
structure TimeWindows where
  morning_start : Option String := none
  morning_end : Option String := none
  afternoon_start : Option String := none
  afternoon_end : Option String := none
  evening_start : Option String := none
  evening_end : Option String := none
deriving DecidableEq, Repr

/-- A person record, restricted to the fields the engine reads. -/
structure Person where
  time_windows : TimeWindows := {}
deriving DecidableEq, Repr

/-- A chore definition, restricted to the fields the engine reads. -/
structure Chore where
  enabled : Bool := true
  recurrence : Recurrence := .daily
  time_period : Period := .all_day
  assigned_people : List String := []
deriving DecidableEq, Repr

/-- A chore instance as created by _generate_chore_instances. -/
structure ChoreInstance where
  chore_id : String
  due_date : DateTime
  status : Status
  assigned_people : List String
  completions : List (String × Bool)
deriving DecidableEq, Repr

/-- Engine state: the coordinator's people, chores and chore_instances
mappings. -/
structure EngineState where
  people : List (String × Person)
  chores : List (String × Chore)
  chore_instances : List (String × ChoreInstance)
deriving DecidableEq, Repr

/-- Events fired on the bus (EVENT_* names in const.py), with the
payload parts the claims inspect. -/
inductive Event where
  | chores_activated (chores : List ChoreInstance)
  | chore_completed (chore : Option Chore) (instance_rec : ChoreInstance)
  | all_chores_completed (completed_chores : List ChoreInstance)
  | person_completed (person_id : String)
deriving DecidableEq, Repr

/-- ChoreNetCoordinator._calculate_next_due_date.  daily: now truncated
to midnight.  weekly: days_ahead = weekday - now.weekday(), bumped by 7
when not positive, then now + days_ahead truncated to midnight. -/
def calculate_next_due_date (chore : Chore) (now : DateTime) : Option DateTime :=
  match chore.recurrence with
  | .daily => some now.midnight
  | .weekly target_weekday =>
    let days_ahead := target_weekday - now.weekday
    let days_ahead := if days_ahead ≤ 0 then days_ahead + 7 else days_ahead
    some ((now.addDays days_ahead).midnight)

/-- The instance deduplication key f"{chore_id}_{next_due.date().isoformat()}". -/
def instance_key (chore_id : String) (day : Int) : String :=
  chore_id ++ "_" ++ toString day

/-- ChoreNetCoordinator._generate_chore_instances: for an enabled chore
whose next due date has arrived, insert a fresh inactive instance under
the dedup key unless one is already present. -/
def generate_chore_instances (chore_id : String) (chore : Chore) (now : DateTime)
    (instances : List (String × ChoreInstance)) : List (String × ChoreInstance) :=
  if !chore.enabled then instances
  else
    match calculate_next_due_date chore now with
    | none => instances
    | some next_due =>
      if next_due.le now then
        let key := instance_key chore_id next_due.day
        if (lookup instances key).isSome then instances
        else
          setKey instances key
            { chore_id := chore_id
              due_date := next_due
              status := .inactive
              assigned_people := chore.assigned_people
              completions := [] }
      else instances

/-- ChoreNetCoordinator._is_chore_overdue: the all-day rule compares
calendar dates strictly; the other periods fall through to the same
date-only comparison. -/
def is_chore_overdue (due_date : DateTime) (time_period : Period) (now : DateTime) : Bool :=
  match time_period with
  | .all_day => decide (now.day > due_date.day)
  | _ => decide (now.day > due_date.day)

/-- One instance of the loop body of _mark_overdue_chores: skip other
chores' instances, then demote an overdue pending instance. -/
def mark_one (chore_id : String) (chore : Chore) (now : DateTime)
    (inst : ChoreInstance) : ChoreInstance :=
  if inst.chore_id ≠ chore_id then inst
  else if inst.status = .pending then
    if is_chore_overdue inst.due_date chore.time_period now then
      { inst with status := .overdue }
    else inst
  else inst

/-- ChoreNetCoordinator._mark_overdue_chores: every pending instance of
this chore whose due window has elapsed becomes overdue. -/
def mark_overdue_chores (chore_id : String) (chore : Chore) (now : DateTime)
    (instances : List (String × ChoreInstance)) : List (String × ChoreInstance) :=
  instances.map fun e => (e.1, mark_one chore_id chore now e.2)

/-- ChoreNetCoordinator._is_in_time_window: pick the person's window for
the period (with the documented defaults) and compare HH:MM strings
inclusively; any other period returns true. -/
def is_in_time_window (person : Person) (time_period : Period) (now : DateTime) : Bool :=
  let tw := person.time_windows
  match time_period with
  | .morning =>
    let start_time := tw.morning_start.getD "06:00"
    let end_time := tw.morning_end.getD "12:00"
    strLe start_time now.hhmm && strLe now.hhmm end_time
  | .afternoon =>
    let start_time := tw.afternoon_start.getD "12:00"
    let end_time := tw.afternoon_end.getD "18:00"
    strLe start_time now.hhmm && strLe now.hhmm end_time
  | .evening =>
    let start_time := tw.evening_start.getD "18:00"
    let end_time := tw.evening_end.getD "22:00"
    strLe start_time now.hhmm && strLe now.hhmm end_time
  | .all_day => true

/-- ChoreNetCoordinator._should_activate_chore: all-day activates
unconditionally; otherwise some assigned person present in the people
map must be inside their window. -/
def should_activate_chore (people : List (String × Person)) (inst : ChoreInstance)
    (chore : Chore) (now : DateTime) : Bool :=
  if chore.time_period = .all_day then true
  else
    inst.assigned_people.any fun person_id =>
      match lookup people person_id with
      | some person => is_in_time_window person chore.time_period now
      | none => false

/-- One instance of the loop body of _check_activated_chores: the
updated instance and whether it was newly activated. -/
def activate_one (people : List (String × Person)) (chores : List (String × Chore))
    (now : DateTime) (inst : ChoreInstance) : ChoreInstance × Bool :=
  if inst.status = .inactive then
    match lookup chores inst.chore_id with
    | some chore =>
      if should_activate_chore people inst chore now then
        ({ inst with status := .pending }, true)
      else (inst, false)
    | none => (inst, false)
  else (inst, false)

/-- ChoreNetCoordinator._check_activated_chores: promote activatable
inactive instances to pending and fire one batched event when any did. -/
def check_activated_chores (st : EngineState) (now : DateTime) : EngineState × List Event :=
  let newly_activated := st.chore_instances.filterMap fun e =>
    let r := activate_one st.people st.chores now e.2
    if r.2 then some r.1 else none
  let updated := st.chore_instances.map fun e =>
    (e.1, (activate_one st.people st.chores now e.2).1)
  ({ st with chore_instances := updated },
   if newly_activated.isEmpty then [] else [.chores_activated newly_activated])

/-- ChoreNetCoordinator._check_all_chores_completed: with a non-empty
set of pending/overdue instances, fire the aggregate event exactly when
every one of them has all of its completions map values true. -/
def check_all_chores_completed (st : EngineState) : List Event :=
  let active_chores := (valuesOf st.chore_instances).filter fun i =>
    i.status == Status.pending || i.status == Status.overdue
  if !active_chores.isEmpty then
    let completed_chores := active_chores.filter fun i =>
      (valuesOf i.completions).all fun b => b
    if completed_chores.length = active_chores.length then
      [.all_chores_completed completed_chores]
    else []
  else []

/-- ChoreNetCoordinator._check_person_all_chores_completed: when the
person exists and has a non-empty set of active assigned instances, all
of which they completed, fire the person-completed event. -/
def check_person_all_chores_completed (st : EngineState) (person_id : String) : List Event :=
  match lookup st.people person_id with
  | none => []
  | some _person =>
    let person_active_chores := (valuesOf st.chore_instances).filter fun i =>
      i.assigned_people.contains person_id
        && (i.status == Status.pending || i.status == Status.overdue)
    if !person_active_chores.isEmpty then
      if person_active_chores.all (fun i => lookupD i.completions person_id false) then
        [.person_completed person_id]
      else []
    else []

/-- ChoreNetCoordinator.complete_chore: false when the instance is
missing; otherwise record the completion, promote to completed and fire
the chore-completed event when every assignee now maps to true, then
re-evaluate the acting person. -/
def complete_chore (st : EngineState) (chore_instance_id : String) (person_id : String) :
    EngineState × List Event × Bool :=
  match lookup st.chore_instances chore_instance_id with
  | none => (st, [], false)
  | some inst =>
    let inst1 := { inst with completions := setKey inst.completions person_id true }
    let fully_completed :=
      inst1.assigned_people.all fun pid => lookupD inst1.completions pid false
    let inst2 := if fully_completed then { inst1 with status := .completed } else inst1
    let completion_events :=
      if fully_completed then
        [Event.chore_completed (lookup st.chores inst2.chore_id) inst2]
      else []
    let st' := { st with chore_instances := setKey st.chore_instances chore_instance_id inst2 }
    let person_events := check_person_all_chores_completed st' person_id
    (st', completion_events ++ person_events, true)

/-- ChoreCompletionSwitch.async_turn_off: clear the person's completion
flag and demote a completed instance back to pending. -/
def turn_off (st : EngineState) (instance_key_id : String) (person_id : String) : EngineState :=
  match lookup st.chore_instances instance_key_id with
  | none => st
  | some inst =>
    let inst1 := { inst with completions := setKey inst.completions person_id false }
    let inst2 := if inst1.status = .completed then { inst1 with status := .pending } else inst1
    { st with chore_instances := setKey st.chore_instances instance_key_id inst2 }

/-- ChoreNetCoordinator._update_chore_instances: per chore, generate
then mark overdue, in chores-map order. -/
def update_chore_instances (st : EngineState) (now : DateTime) :
    List (String × ChoreInstance) :=
  st.chores.foldl
    (fun insts e => mark_overdue_chores e.1 e.2 now (generate_chore_instances e.1 e.2 now insts))
    st.chore_instances

/-- ChoreNetCoordinator._async_update_data, state-and-events part: one
tick runs generation and overdue marking, then activation, then the
aggregate completion check. -/
def tick (st : EngineState) (now : DateTime) : EngineState × List Event :=
  let st1 := { st with chore_instances := update_chore_instances st now }
  let activated := check_activated_chores st1 now
  let all_events := check_all_chores_completed activated.1
  (activated.1, activated.2 ++ all_events)

/-! Association-list lemmas shared by the claim proofs. -/

/-- Keys of an association list, in order. -/
def keysOf (m : List (String × α)) : List String := m.map Prod.fst

theorem lookup_setKey_self (m : List (String × α)) (k : String) (v : α) :
    lookup (setKey m k v) k = some v := by
  induction m with
  | nil => simp [setKey, lookup]
  | cons e rest ih =>
    by_cases h : e.1 = k
    · simp [setKey, h, lookup]
    · simp [setKey, h, lookup, ih]

theorem lookup_setKey_ne (m : List (String × α)) (k k' : String) (v : α)
    (h : k ≠ k') : lookup (setKey m k v) k' = lookup m k' := by
  induction m with
  | nil => simp [setKey, lookup, h]
  | cons e rest ih =>
    by_cases he : e.1 = k
    · simp [setKey, he, lookup, h]
    · simp only [setKey, he, if_false, lookup]
      by_cases he' : e.1 = k'
      · simp [he']
      · simp [he', ih]

theorem all_setKey (m : List (String × α)) (k : String) (v : α)
    (p : String × α → Bool) (hm : m.all p = true) (hv : p (k, v) = true) :
    (setKey m k v).all p = true := by
  induction m with
  | nil => simp [setKey, hv]
  | cons e rest ih =>
    simp only [List.all_cons, Bool.and_eq_true] at hm
    by_cases he : e.1 = k
    · simp [setKey, he, hv, hm.2]
    · simp [setKey, he, hm.1, ih hm.2]

theorem all_lookup (m : List (String × α)) (k : String) (v : α)
    (p : String × α → Bool) (hm : m.all p = true) (h : lookup m k = some v) :
    p (k, v) = true := by
  induction m with
  | nil => simp [lookup] at h
  | cons e rest ih =>
    simp only [List.all_cons, Bool.and_eq_true] at hm
    by_cases he : e.1 = k
    · simp only [lookup, he, if_true, Option.some.injEq] at h
      have : e = (k, v) := by
        cases e
        simp_all
      rw [← this]
      exact hm.1
    · simp only [lookup, he, if_false] at h
      exact ih hm.2 h

theorem lookup_isSome_iff_mem (m : List (String × α)) (k : String) :
    (lookup m k).isSome = true ↔ k ∈ keysOf m := by
  induction m with
  | nil => simp [lookup, keysOf]
  | cons e rest ih =>
    by_cases he : e.1 = k
    · simp [lookup, keysOf, he]
    · simp [lookup, keysOf, he, ih, Ne.symm he]

theorem keysOf_setKey_of_lookup_none (m : List (String × α)) (k : String) (v : α)
    (h : lookup m k = none) : keysOf (setKey m k v) = keysOf m ++ [k] := by
  induction m with
  | nil => simp [setKey, keysOf]
  | cons e rest ih =>
    by_cases he : e.1 = k
    · simp [lookup, he] at h
    · simp only [lookup, he, if_false] at h
      have hih := ih h
      simp only [keysOf] at hih
      simp [setKey, keysOf, he, hih]

theorem keysOf_setKey_of_lookup_some (m : List (String × α)) (k : String) (v : α)
    (h : (lookup m k).isSome = true) : keysOf (setKey m k v) = keysOf m := by
  induction m with
  | nil => simp [lookup] at h
  | cons e rest ih =>
    by_cases he : e.1 = k
    · simp [setKey, keysOf, he]
    · simp only [lookup, he, if_false] at h
      have hih := ih h
      simp only [keysOf] at hih
      simp [setKey, keysOf, he, hih]

theorem nodup_keysOf_setKey (m : List (String × α)) (k : String) (v : α)
    (h : (keysOf m).Nodup) : (keysOf (setKey m k v)).Nodup := by
  by_cases hs : (lookup m k).isSome = true
  · rw [keysOf_setKey_of_lookup_some m k v hs]
    exact h
  · have hn : lookup m k = none := by
      cases hl : lookup m k
      · rfl
      · simp [hl] at hs
    rw [keysOf_setKey_of_lookup_none m k v hn]
    have hk : k ∉ keysOf m := by
      intro hmem
      exact hs ((lookup_isSome_iff_mem m k).mpr hmem)
    simp [List.nodup_append, h, hk]

theorem lookup_map_val (m : List (String × α)) (f : α → β) (k : String) :
    lookup (m.map fun e => (e.1, f e.2)) k = (lookup m k).map f := by
  induction m with
  | nil => simp [lookup]
  | cons e rest ih =>
    by_cases he : e.1 = k
    · simp [lookup, he]
    · simp [lookup, he, ih]

/-! Engine-level helper lemmas. -/

/-- Generation never disturbs an existing store entry. -/
theorem lookup_generate_of_some (cid : String) (ch : Chore) (now : DateTime)
    (m : List (String × ChoreInstance)) (k : String) (i : ChoreInstance)
    (h : lookup m k = some i) :
    lookup (generate_chore_instances cid ch now m) k = some i := by
  unfold generate_chore_instances
  by_cases he : ch.enabled
  · simp only [he, Bool.not_true, Bool.false_eq_true, if_false]
    cases hc : calculate_next_due_date ch now with
    | none => exact h
    | some nd =>
      simp only []
      by_cases hle : nd.le now
      · simp only [hle, if_true]
        by_cases hs : (lookup m (instance_key cid nd.day)).isSome
        · simp [hs, h]
        · simp only [hs, Bool.false_eq_true, if_false]
          have hne : instance_key cid nd.day ≠ k := by
            intro heq
            rw [heq, h] at hs
            simp at hs
          rw [lookup_setKey_ne _ _ _ _ hne]
          exact h
      · simp [hle, h]
  · simp [he, h]

/-- Overdue marking leaves any instance that is not pending alone. -/
theorem mark_one_of_not_pending (cid : String) (ch : Chore) (now : DateTime)
    (i : ChoreInstance) (h : i.status ≠ .pending) : mark_one cid ch now i = i := by
  unfold mark_one
  by_cases hc : i.chore_id ≠ cid <;> simp [hc, h]

/-- Per-key view of _mark_overdue_chores. -/
theorem lookup_mark_overdue (cid : String) (ch : Chore) (now : DateTime)
    (m : List (String × ChoreInstance)) (k : String) :
    lookup (mark_overdue_chores cid ch now m) k = (lookup m k).map (mark_one cid ch now) := by
  unfold mark_overdue_chores
  exact lookup_map_val m (mark_one cid ch now) k

/-- Activation leaves any instance that is not inactive alone. -/
theorem activate_one_of_not_inactive (people : List (String × Person))
    (chores : List (String × Chore)) (now : DateTime) (i : ChoreInstance)
    (h : i.status ≠ .inactive) : activate_one people chores now i = (i, false) := by
  simp [activate_one, h]

/-- The generate-then-mark fold of one tick never disturbs an overdue
instance. -/
theorem lookup_fold_overdue (now : DateTime) (chores : List (String × Chore))
    (m : List (String × ChoreInstance)) (k : String) (i : ChoreInstance)
    (hst : i.status = .overdue) (h : lookup m k = some i) :
    lookup
      (chores.foldl
        (fun insts e => mark_overdue_chores e.1 e.2 now (generate_chore_instances e.1 e.2 now insts))
        m) k = some i := by
  induction chores generalizing m with
  | nil => simpa using h
  | cons c rest ih =>
    simp only [List.foldl_cons]
    apply ih
    rw [lookup_mark_overdue, lookup_generate_of_some c.1 c.2 now m k i h]
    simp [mark_one_of_not_pending, hst]

/-- Recognizer for the chore-completed event. -/
def is_completed_event : Event → Bool
  | .chore_completed _ _ => true
  | _ => false

/-- The person-level completion check fires no chore-completed event. -/
theorem countP_person_events (st : EngineState) (pid : String) :
    (check_person_all_chores_completed st pid).countP is_completed_event = 0 := by
  unfold check_person_all_chores_completed
  cases lookup st.people pid with
  | none => simp
  | some p =>
    simp only []
    split
    · split
      · simp [List.countP_cons, is_completed_event]
      · simp
    · simp

/-! Completion-tracking operations and the completions-subset invariant
(spec section 3 and section 8). -/

/-- One externally invocable completion-tracking call: complete_chore or
the switch turn-off (un-completion). -/
inductive TrackOp where
  | complete (id pid : String)
  | uncomplete (id pid : String)
deriving DecidableEq, Repr

/-- State reached by one tracking call (events and return value dropped). -/
def apply_track_op (st : EngineState) : TrackOp → EngineState
  | .complete id pid => (complete_chore st id pid).1
  | .uncomplete id pid => turn_off st id pid

/-- State reached by a sequence of tracking calls. -/
def apply_track_ops (st : EngineState) (ops : List TrackOp) : EngineState :=
  ops.foldl apply_track_op st

/-- The call names a person assigned to the instance it targets,
whenever that instance exists. -/
def op_person_assigned (st : EngineState) : TrackOp → Prop
  | .complete id pid =>
    ∀ inst, lookup st.chore_instances id = some inst → inst.assigned_people.contains pid = true
  | .uncomplete id pid =>
    ∀ inst, lookup st.chore_instances id = some inst → inst.assigned_people.contains pid = true

/-- The completions keys of one instance all belong to its assignees. -/
def keys_subset_assigned (inst : ChoreInstance) : Bool :=
  inst.completions.all fun pc => inst.assigned_people.contains pc.1

/-- The spec invariant: every stored instance keeps its completions keys
inside assigned_people. -/
def completions_subset_invariant (st : EngineState) : Bool :=
  st.chore_instances.all fun e => keys_subset_assigned e.2

/-- A tracking call replaces at most the entry it targets, and keeps
that entry's assignee snapshot. -/
theorem apply_track_op_assigned (st : EngineState) (op : TrackOp) (k : String) :
    (lookup (apply_track_op st op).chore_instances k).map ChoreInstance.assigned_people
      = (lookup st.chore_instances k).map ChoreInstance.assigned_people := by
  cases op with
  | complete id pid =>
    cases h : lookup st.chore_instances id with
    | none => simp [apply_track_op, complete_chore, h]
    | some inst =>
      simp only [apply_track_op, complete_chore, h]
      by_cases hk : id = k
      · subst hk
        by_cases hf : inst.assigned_people.all
            (fun q => lookupD (setKey inst.completions pid true) q false)
        · simp [hf, lookup_setKey_self, h]
        · simp [hf, lookup_setKey_self, h]
      · by_cases hf : inst.assigned_people.all
            (fun q => lookupD (setKey inst.completions pid true) q false)
        · simp [hf, lookup_setKey_ne _ _ _ _ hk]
        · simp [hf, lookup_setKey_ne _ _ _ _ hk]
  | uncomplete id pid =>
    cases h : lookup st.chore_instances id with
    | none => simp [apply_track_op, turn_off, h]
    | some inst =>
      simp only [apply_track_op, turn_off, h]
      by_cases hk : id = k
      · subst hk
        by_cases hc : inst.status = Status.completed
        · simp [hc, lookup_setKey_self, h]
        · simp [hc, lookup_setKey_self, h]
      · by_cases hc : inst.status = Status.completed
        · simp [hc, lookup_setKey_ne _ _ _ _ hk]
        · simp [hc, lookup_setKey_ne _ _ _ _ hk]

/-- Whether a call is addressed to an assignee is stable under applying
another call. -/
theorem op_person_assigned_preserved (st : EngineState) (op op' : TrackOp)
    (h : op_person_assigned st op') : op_person_assigned (apply_track_op st op) op' := by
  have key : ∀ id pid,
      (∀ inst, lookup st.chore_instances id = some inst →
        inst.assigned_people.contains pid = true) →
      ∀ inst, lookup (apply_track_op st op).chore_instances id = some inst →
        inst.assigned_people.contains pid = true := by
    intro id pid hall inst hl
    have hmap := apply_track_op_assigned st op id
    rw [hl] at hmap
    cases hs : lookup st.chore_instances id with
    | none => rw [hs] at hmap; simp at hmap
    | some inst0 =>
      rw [hs] at hmap
      simp only [Option.map_some', Option.some.injEq] at hmap
      rw [hmap]
      exact hall inst0 hs
  cases op' with
  | complete id pid => exact key id pid h
  | uncomplete id pid => exact key id pid h

/-- One well-addressed tracking call preserves the subset invariant. -/
theorem op_preserves_invariant (st : EngineState) (op : TrackOp)
    (hinv : completions_subset_invariant st = true) (hop : op_person_assigned st op) :
    completions_subset_invariant (apply_track_op st op) = true := by
  have key : ∀ id pid (b : Bool),
      (∀ inst, lookup st.chore_instances id = some inst →
        inst.assigned_people.contains pid = true) →
      ∀ inst upd, lookup st.chore_instances id = some inst →
        upd.assigned_people = inst.assigned_people →
        upd.completions = setKey inst.completions pid b →
        completions_subset_invariant
          { st with chore_instances := setKey st.chore_instances id upd } = true := by
    intro id pid b hall inst upd hl hassigned hcomp
    have hsub : keys_subset_assigned inst = true :=
      all_lookup st.chore_instances id inst _ hinv hl
    have hsub' : keys_subset_assigned upd = true := by
      unfold keys_subset_assigned at hsub ⊢
      rw [hassigned, hcomp]
      exact all_setKey inst.completions pid b _ hsub (hall inst hl)
    unfold completions_subset_invariant at hinv ⊢
    exact all_setKey st.chore_instances id upd _ hinv hsub'
  cases op with
  | complete id pid =>
    cases hl : lookup st.chore_instances id with
    | none => simpa [apply_track_op, complete_chore, hl] using hinv
    | some inst =>
      simp only [apply_track_op, complete_chore, hl]
      by_cases hf : inst.assigned_people.all
          (fun q => lookupD (setKey inst.completions pid true) q false)
      · simp only [hf, if_true]
        exact key id pid true (hop ·) inst _ hl rfl rfl
      · simp only [hf, Bool.false_eq_true, if_false]
        exact key id pid true (hop ·) inst _ hl rfl rfl
  | uncomplete id pid =>
    cases hl : lookup st.chore_instances id with
    | none => simpa [apply_track_op, turn_off, hl] using hinv
    | some inst =>
      simp only [apply_track_op, turn_off, hl]
      by_cases hc : inst.status = Status.completed
      · simp only [hc, if_true]
        exact key id pid false (hop ·) inst _ hl rfl rfl
      · simp only [hc, if_false]
        exact key id pid false (hop ·) inst _ hl rfl rfl

/-! Spec-side readings used by refinement statements. -/

/-- The instances the aggregate check ranges over: status pending or
overdue, in store order. -/
def active_instances (st : EngineState) : List ChoreInstance :=
  (valuesOf st.chore_instances).filter fun i =>
    i.status == Status.pending || i.status == Status.overdue

/-- The window the spec assigns to a person for a period: the configured
start and end with the documented defaults (spec section 4.3); all-day
implicitly covers the whole day. -/
def spec_window (tw : TimeWindows) : Period → String × String
  | .morning => (tw.morning_start.getD "06:00", tw.morning_end.getD "12:00")
  | .afternoon => (tw.afternoon_start.getD "12:00", tw.afternoon_end.getD "18:00")
  | .evening => (tw.evening_start.getD "18:00", tw.evening_end.getD "22:00")
  | .all_day => ("00:00", "24:00")

/-- The activation condition in the words of spec section 4.3: all-day
activates unconditionally, otherwise some assigned person present in
the people map has the current wall-clock time inside their window for
the period, bounds inclusive, compared as HH:MM strings. -/
def spec_activation (people : List (String × Person)) (inst : ChoreInstance)
    (chore : Chore) (now : DateTime) : Prop :=
  chore.time_period = .all_day ∨
    ∃ pid ∈ inst.assigned_people, ∃ person, lookup people pid = some person ∧
      strLe (spec_window person.time_windows chore.time_period).1 now.hhmm = true ∧
      strLe now.hhmm (spec_window person.time_windows chore.time_period).2 = true

/-! Concrete fixtures used by witnesses and counterexamples. -/

/-- A pending all-day instance of chore dishes assigned to alice alone,
with nothing completed yet. -/
def inst_pending : ChoreInstance :=
  { chore_id := "dishes", due_date := ⟨0, 0⟩, status := .pending,
    assigned_people := ["alice"], completions := [] }

/-- The dishes chore: enabled, daily, all-day, assigned to alice. -/
def chore_dishes : Chore :=
  { enabled := true, recurrence := .daily, time_period := .all_day,
    assigned_people := ["alice"] }

/-- Store with the single pending instance of dishes. -/
def st_pending : EngineState :=
  { people := [("alice", {})], chores := [("dishes", chore_dishes)],
    chore_instances := [("dishes_0", inst_pending)] }

/-- The same instance fully completed by alice. -/
def inst_done : ChoreInstance :=
  { inst_pending with status := .completed, completions := [("alice", true)] }

/-- Store with the fully completed instance. -/
def st_done : EngineState :=
  { st_pending with chore_instances := [("dishes_0", inst_done)] }

/-- The same instance still inactive. -/
def inst_inactive : ChoreInstance := { inst_pending with status := .inactive }

/-- Store with the inactive instance. -/
def st_inactive : EngineState :=
  { st_pending with chore_instances := [("dishes_0", inst_inactive)] }

/-- The same instance already overdue. -/
def inst_overdue : ChoreInstance := { inst_pending with status := .overdue }

/-- Store with the overdue instance. -/
def st_overdue : EngineState :=
  { st_pending with chore_instances := [("dishes_0", inst_overdue)] }

/-- A morning-period variant of the dishes chore. -/
def chore_morning : Chore := { chore_dishes with time_period := .morning }

/-- Store with an inactive instance of the morning chore. -/
def st_morning : EngineState :=
  { people := [("alice", {})], chores := [("dishes", chore_morning)],
    chore_instances := [("dishes_0", inst_inactive)] }

/-! Claim theorems. -/

/-- Closed form of one daily generation run: a no-op when the dedup key
is present, an insertion of the fresh inactive instance otherwise. -/
theorem generate_daily_eq (cid : String) (chore : Chore) (now : DateTime)
    (m : List (String × ChoreInstance))
    (he : chore.enabled = true) (hr : chore.recurrence = .daily) :
    generate_chore_instances cid chore now m =
      if (lookup m (instance_key cid now.day)).isSome then m
      else
        setKey m (instance_key cid now.day)
          { chore_id := cid, due_date := ⟨now.day, 0⟩, status := .inactive,
            assigned_people := chore.assigned_people, completions := [] } := by
  have hle : DateTime.le ⟨now.day, 0⟩ now = true := by simp [DateTime.le]
  unfold generate_chore_instances
  simp only [calculate_next_due_date, hr, he, DateTime.midnight, Bool.not_true,
    Bool.false_eq_true, if_false, hle, if_true]

/-- C4: for an enabled daily chore, generating twice within the same
calendar day leaves the store of the first run untouched; the first run
leaves an instance under the dedup key, and distinctness of store keys
is preserved, so the store never holds two instances for the same
chore and calendar date. -/
theorem daily_generation_idempotent (cid : String) (chore : Chore)
    (now1 now2 : DateTime) (m : List (String × ChoreInstance))
    (he : chore.enabled = true) (hr : chore.recurrence = .daily)
    (hd : now1.day = now2.day) :
    generate_chore_instances cid chore now2 (generate_chore_instances cid chore now1 m)
      = generate_chore_instances cid chore now1 m
    ∧ (lookup (generate_chore_instances cid chore now1 m) (instance_key cid now1.day)).isSome
        = true
    ∧ ((keysOf m).Nodup → (keysOf (generate_chore_instances cid chore now1 m)).Nodup) := by
  rw [generate_daily_eq cid chore now1 m he hr]
  by_cases hl : (lookup m (instance_key cid now1.day)).isSome
  · rw [if_pos hl]
    refine ⟨?_, hl, fun h => h⟩
    rw [generate_daily_eq cid chore now2 m he hr, ← hd, if_pos hl]
  · rw [if_neg hl]
    have hs1 : (lookup
        (setKey m (instance_key cid now1.day)
          { chore_id := cid, due_date := ⟨now1.day, 0⟩, status := .inactive,
            assigned_people := chore.assigned_people, completions := [] })
        (instance_key cid now1.day)).isSome = true := by
      rw [lookup_setKey_self]
      rfl
    refine ⟨?_, hs1, fun hnd => nodup_keysOf_setKey m _ _ hnd⟩
    rw [generate_daily_eq cid chore now2 _ he hr, ← hd, if_pos hs1]

/-- C4 witness: the dishes chore generated at two times of day 5. -/
theorem daily_generation_idempotent_witness :
    generate_chore_instances "dishes" chore_dishes ⟨5, 200⟩
        (generate_chore_instances "dishes" chore_dishes ⟨5, 100⟩ [])
      = generate_chore_instances "dishes" chore_dishes ⟨5, 100⟩ []
    ∧ (lookup (generate_chore_instances "dishes" chore_dishes ⟨5, 100⟩ [])
        (instance_key "dishes" 5)).isSome = true := by
  have h := daily_generation_idempotent "dishes" chore_dishes ⟨5, 100⟩ ⟨5, 200⟩ []
    (by decide) (by decide) (by decide)
  exact ⟨h.1, h.2.1⟩

/-- C5: the weekly rule computes the days ahead as the spec formula
(weekday - now.weekday()) mod 7 with 7 substituted for 0, truncated to
midnight; on a Monday a weekly(0) chore is due 7 days ahead, never the
same day. -/
theorem weekly_days_ahead (chore : Chore) (now : DateTime) (wd : Int)
    (hr : chore.recurrence = .weekly wd) (h0 : 0 ≤ wd) (h7 : wd < 7) :
    calculate_next_due_date chore now =
      some ⟨now.day + (if (wd - now.weekday) % 7 = 0 then 7 else (wd - now.weekday) % 7), 0⟩
    ∧ (now.weekday = 0 → wd = 0 →
        calculate_next_due_date chore now = some ⟨now.day + 7, 0⟩) := by
  have hw0 : 0 ≤ now.weekday := Int.emod_nonneg now.day (by norm_num)
  have hw7 : now.weekday < 7 := Int.emod_lt_of_pos now.day (by norm_num)
  have harith : (if wd - now.weekday ≤ 0 then wd - now.weekday + 7 else wd - now.weekday)
      = (if (wd - now.weekday) % 7 = 0 then 7 else (wd - now.weekday) % 7) := by
    by_cases hle : wd - now.weekday ≤ 0 <;> by_cases hz : (wd - now.weekday) % 7 = 0 <;>
      simp only [hle, hz, if_true, if_false] <;> omega
  have hmain : calculate_next_due_date chore now =
      some ⟨now.day + (if (wd - now.weekday) % 7 = 0 then 7 else (wd - now.weekday) % 7), 0⟩ := by
    simp only [calculate_next_due_date, hr, DateTime.addDays, DateTime.midnight,
      Option.some.injEq]
    rw [harith]
  refine ⟨hmain, fun hmon hwd => ?_⟩
  rw [hmain, hmon, hwd]
  norm_num

/-- C5 witness: weekly(0) evaluated on a Monday morning (day ordinal 0)
is due on day 7. -/
theorem weekly_days_ahead_witness :
    calculate_next_due_date { recurrence := .weekly 0 } ⟨0, 600⟩ = some ⟨7, 0⟩ := by
  have h := (weekly_days_ahead { recurrence := .weekly 0 } ⟨0, 600⟩ 0 rfl
    (by decide) (by decide)).2 (by decide) rfl
  simpa using h

/-- C8: un-completing a person on an existing instance stores the
cleared flag and maps completed to pending while leaving every other
status unchanged; no date is consulted, so a completed instance never
reverts to overdue. -/
theorem turn_off_reverts_completed (st : EngineState) (k pid : String)
    (inst : ChoreInstance) (h : lookup st.chore_instances k = some inst) :
    lookup (turn_off st k pid).chore_instances k =
      some { inst with
        completions := setKey inst.completions pid false
        status := if inst.status = .completed then .pending else inst.status } := by
  simp only [turn_off, h]
  by_cases hc : inst.status = .completed
  · simp [hc, lookup_setKey_self]
  · simp [hc, lookup_setKey_self]

/-- C8 witness: un-completing alice on the completed dishes instance
yields a pending instance with the flag cleared. -/
theorem turn_off_reverts_completed_witness :
    lookup (turn_off st_done "dishes_0" "alice").chore_instances "dishes_0" =
      some { inst_done with completions := [("alice", false)], status := .pending } := by
  have h := turn_off_reverts_completed st_done "dishes_0" "alice" inst_done (by decide)
  rw [h]
  decide

/-- C9: complete_chore on an instance id absent from the store returns
false with the state unchanged and no events; on any present id it
returns true. -/
theorem complete_chore_unknown_id (st : EngineState) (id pid : String) :
    (lookup st.chore_instances id = none → complete_chore st id pid = (st, [], false))
    ∧ (∀ inst, lookup st.chore_instances id = some inst →
        (complete_chore st id pid).2.2 = true) := by
  constructor
  · intro h
    simp [complete_chore, h]
  · intro inst h
    simp [complete_chore, h]

/-- C9 witness: an unknown and a known instance id. -/
theorem complete_chore_unknown_id_witness :
    complete_chore st_pending "laundry_0" "alice" = (st_pending, [], false)
    ∧ (complete_chore st_pending "dishes_0" "alice").2.2 = true :=
  ⟨(complete_chore_unknown_id st_pending "laundry_0" "alice").1 (by decide),
   (complete_chore_unknown_id st_pending "dishes_0" "alice").2 inst_pending (by decide)⟩

/-- C10: complete_chore never inspects the prior status: whenever every
assignee maps to true after the flag is recorded, the instance is
stored with status completed whatever its status was before, so an
inactive or overdue instance jumps straight to completed. -/
theorem complete_chore_ignores_prior_status (st : EngineState) (id pid : String)
    (inst : ChoreInstance) (h : lookup st.chore_instances id = some inst)
    (hall : inst.assigned_people.all
      (fun q => lookupD (setKey inst.completions pid true) q false) = true) :
    lookup (complete_chore st id pid).1.chore_instances id =
      some { inst with
        completions := setKey inst.completions pid true
        status := .completed } := by
  simp [complete_chore, h, hall, lookup_setKey_self]

/-- C10 witness: completing the single assignee of the inactive dishes
instance stores it as completed, skipping pending entirely. -/
theorem complete_chore_ignores_prior_status_witness :
    lookup (complete_chore st_inactive "dishes_0" "alice").1.chore_instances "dishes_0" =
      some { inst_inactive with completions := [("alice", true)], status := .completed } := by
  have h := complete_chore_ignores_prior_status st_inactive "dishes_0" "alice"
    inst_inactive (by decide) (by decide)
  rw [h]
  decide

/-- C1 counterexample: complete_chore records a completion for bob, who
is not among the assignees of the target instance, so a single call
breaks the completions-subset invariant. -/
theorem complete_chore_adds_unassigned_key :
    completions_subset_invariant st_pending = true
    ∧ inst_pending.assigned_people = ["alice"]
    ∧ (complete_chore st_pending "dishes_0" "bob").2.2 = true
    ∧ completions_subset_invariant (complete_chore st_pending "dishes_0" "bob").1 = false := by
  decide

/-- C1 (amended): when every complete/uncomplete call names a person
assigned to the instance it targets, any sequence of such calls
preserves the completions-subset invariant. -/
theorem completions_subset_preserved (st : EngineState) (ops : List TrackOp)
    (hinv : completions_subset_invariant st = true)
    (hops : ∀ op ∈ ops, op_person_assigned st op) :
    completions_subset_invariant (apply_track_ops st ops) = true := by
  induction ops generalizing st with
  | nil => simpa [apply_track_ops] using hinv
  | cons op rest ih =>
    simp only [apply_track_ops, List.foldl_cons]
    have hnext : completions_subset_invariant (apply_track_op st op) = true :=
      op_preserves_invariant st op hinv (hops op (by simp))
    have hrest : ∀ op' ∈ rest, op_person_assigned (apply_track_op st op) op' := by
      intro op' hop'
      exact op_person_assigned_preserved st op op' (hops op' (by simp [hop']))
    simpa [apply_track_ops] using ih (apply_track_op st op) hnext hrest

/-- C1 witness: a well-addressed complete then uncomplete of alice on
the pending dishes instance keeps the invariant. -/
theorem completions_subset_preserved_witness :
    completions_subset_invariant
      (apply_track_ops st_pending
        [.complete "dishes_0" "alice", .uncomplete "dishes_0" "alice"]) = true := by
  apply completions_subset_preserved
  · decide
  · have h1 : ∀ inst, lookup st_pending.chore_instances "dishes_0" = some inst →
        inst.assigned_people.contains "alice" = true := by
      intro inst hl
      have h2 : (some inst_pending : Option ChoreInstance) = some inst := by
        rw [← hl]
        decide
      simp only [Option.some.injEq] at h2
      subst h2
      decide
    intro op hop
    simp only [List.mem_cons, List.mem_singleton] at hop
    rcases hop with h | h | h
    · subst h
      exact h1
    · subst h
      exact h1
    · cases h

/-- C2 counterexample: on an instance already completed by its only
assignee, a redundant complete call for that same person emits the
chore-completed event again, contradicting the claim that it does not. -/
theorem complete_chore_reemits_event :
    inst_done.status = .completed
    ∧ lookupD inst_done.completions "alice" false = true
    ∧ (complete_chore st_done "dishes_0" "alice").2.1.countP is_completed_event = 1 := by
  decide

/-- C2 (amended): every complete_chore call on an existing instance
emits the chore-completed event exactly once when all assignees map to
true after the recording, and never otherwise; in particular the call
flipping the last outstanding assignee emits it once and stores status
completed, but so does every redundant later call, since the prior
status is not consulted. -/
theorem complete_chore_event_count (st : EngineState) (id pid : String)
    (inst : ChoreInstance) (h : lookup st.chore_instances id = some inst) :
    ((complete_chore st id pid).2.1.countP is_completed_event
        = if inst.assigned_people.all
            (fun q => lookupD (setKey inst.completions pid true) q false) then 1 else 0)
    ∧ (inst.assigned_people.all
          (fun q => lookupD (setKey inst.completions pid true) q false) = true →
        lookup (complete_chore st id pid).1.chore_instances id =
          some { inst with
            completions := setKey inst.completions pid true
            status := .completed }) := by
  constructor
  · by_cases hf : inst.assigned_people.all
        (fun q => lookupD (setKey inst.completions pid true) q false)
    · simp [complete_chore, h, hf, List.countP_append, countP_person_events,
        List.countP_cons, is_completed_event]
    · simp [complete_chore, h, hf, List.countP_append, countP_person_events]
  · intro hf
    simp [complete_chore, h, hf, lookup_setKey_self]

/-- C2 witness: completing the last (only) assignee of the pending
dishes instance emits the chore-completed event exactly once. -/
theorem complete_chore_event_count_witness :
    (complete_chore st_pending "dishes_0" "alice").2.1.countP is_completed_event = 1 := by
  have h := (complete_chore_event_count st_pending "dishes_0" "alice" inst_pending
    (by decide)).1
  rw [h]
  decide

/-- C3 counterexample: a pending instance whose only assignee has no
completions entry at all still triggers the all-chores-completed
notification, because the check looks only at the values present in the
completions map, not at the assignees. -/
theorem all_completed_event_without_completion :
    check_all_chores_completed st_pending = [.all_chores_completed [inst_pending]]
    ∧ inst_pending.status = .pending
    ∧ inst_pending.assigned_people = ["alice"]
    ∧ lookupD inst_pending.completions "alice" false = false := by
  decide

/-- C3 (amended): the aggregate check fires exactly when the set of
pending/overdue instances is non-empty and every value stored in each
of their completions maps is true; an assignee with no completions
entry is not consulted, so an instance with an empty completions map
counts as complete. -/
theorem all_completed_event_iff (st : EngineState) :
    check_all_chores_completed st ≠ [] ↔
      (active_instances st ≠ [] ∧
        ∀ i ∈ active_instances st, ∀ b ∈ valuesOf i.completions, b = true) := by
  unfold check_all_chores_completed active_instances
  set l := (valuesOf st.chore_instances).filter fun i =>
    i.status == Status.pending || i.status == Status.overdue with hl
  by_cases hemp : l.isEmpty
  · have hnil : l = [] := List.isEmpty_iff.mp hemp
    simp [hemp, hnil]
  · have hne : l ≠ [] := by
      intro hnil
      rw [hnil] at hemp
      simp at hemp
    simp only [hemp, Bool.not_false, if_true]
    by_cases hlen : (l.filter fun i => (valuesOf i.completions).all fun b => b).length = l.length
    · simp only [hlen, if_true]
      constructor
      · intro _
        refine ⟨hne, fun i hi b hb => ?_⟩
        have hall := List.filter_length_eq_length.mp hlen i hi
        exact List.all_eq_true.mp hall b hb
      · intro _
        simp
    · simp only [hlen, if_false]
      constructor
      · intro hcontra
        exact absurd rfl hcontra
      · rintro ⟨-, hall⟩
        exact absurd
          (List.filter_length_eq_length.mpr fun i hi =>
            List.all_eq_true.mpr fun b hb => hall i hi b hb)
          hlen

/-- Per-key view of the activation pass. -/
theorem lookup_check_activated (st : EngineState) (now : DateTime) (k : String) :
    lookup (check_activated_chores st now).1.chore_instances k
      = (lookup st.chore_instances k).map
          fun i => (activate_one st.people st.chores now i).1 := by
  unfold check_activated_chores
  exact lookup_map_val st.chore_instances (fun i => (activate_one st.people st.chores now i).1) k

/-- C6: activation of an inactive instance happens exactly under the
spec condition (all-day unconditionally, otherwise some assigned person
present in the people map with the current HH:MM inside their window
for the period, bounds inclusive, defaults 06:00-12:00, 12:00-18:00 and
18:00-22:00); an empty assignee list never activates a non-all-day
chore; and the activation pass stores the promoted pending instance. -/
theorem activation_condition (st : EngineState) (now : DateTime)
    (k : String) (inst : ChoreInstance) (chore : Chore) :
    (should_activate_chore st.people inst chore now = true ↔
      spec_activation st.people inst chore now)
    ∧ (inst.assigned_people = [] → chore.time_period ≠ .all_day →
        should_activate_chore st.people inst chore now = false)
    ∧ (lookup st.chore_instances k = some inst → inst.status = .inactive →
        lookup st.chores inst.chore_id = some chore →
        lookup (check_activated_chores st now).1.chore_instances k =
          some (if should_activate_chore st.people inst chore now then
            { inst with status := .pending } else inst)) := by
  refine ⟨?_, ?_, ?_⟩
  · by_cases hp : chore.time_period = .all_day
    · simp [should_activate_chore, hp, spec_activation]
    · unfold should_activate_chore spec_activation
      simp only [hp, if_false, false_or, List.any_eq_true]
      apply exists_congr
      intro pid
      apply and_congr_right
      intro _
      cases hlp : lookup st.people pid with
      | none => simp
      | some person =>
        simp only [Option.some.injEq]
        constructor
        · intro hw
          refine ⟨person, rfl, ?_⟩
          cases hper : chore.time_period <;>
            simp_all [is_in_time_window, spec_window, Bool.and_eq_true]
        · rintro ⟨p2, rfl, hw1, hw2⟩
          cases hper : chore.time_period <;>
            simp_all [is_in_time_window, spec_window, Bool.and_eq_true]
  · intro hemp hp
    simp [should_activate_chore, hp, hemp]
  · intro hlk hst hch
    rw [lookup_check_activated, hlk]
    simp only [Option.map_some']
    congr 1
    unfold activate_one
    rw [if_pos hst, hch]
    by_cases hact : should_activate_chore st.people inst chore now <;> simp [hact]

/-- C6 witness: at 07:00 the inactive morning dishes instance is
promoted to pending via the default morning window. -/
theorem activation_condition_witness :
    lookup (check_activated_chores st_morning ⟨0, 420⟩).1.chore_instances "dishes_0" =
      some { inst_inactive with status := .pending } := by
  have h := (activation_condition st_morning ⟨0, 420⟩ "dishes_0" inst_inactive
    chore_morning).2.2 (by decide) (by decide) (by decide)
  rw [h]
  decide

/-- C7: the overdue test compares calendar dates strictly and applies
the same date-only rule for every period; the marking pass turns a
pending instance overdue exactly when the current date is past the due
date; and a tick never changes an instance that is already overdue. -/
theorem overdue_date_rule (st : EngineState) (now : DateTime) (k cid : String)
    (chore : Chore) (inst : ChoreInstance) :
    (∀ p : Period, is_chore_overdue inst.due_date p now = decide (inst.due_date.day < now.day))
    ∧ (lookup st.chore_instances k = some inst → inst.status = .pending →
        inst.chore_id = cid →
        lookup (mark_overdue_chores cid chore now st.chore_instances) k =
          some (if inst.due_date.day < now.day then { inst with status := .overdue } else inst))
    ∧ (lookup st.chore_instances k = some inst → inst.status = .overdue →
        lookup (tick st now).1.chore_instances k = some inst) := by
  have hrule : ∀ p : Period,
      is_chore_overdue inst.due_date p now = decide (inst.due_date.day < now.day) := by
    intro p
    cases p <;> rfl
  refine ⟨hrule, ?_, ?_⟩
  · intro hlk hst hcid
    rw [lookup_mark_overdue, hlk]
    simp only [Option.map_some']
    congr 1
    unfold mark_one
    rw [hcid]
    simp only [ne_eq, not_true_eq_false, if_false, hst, if_true, hrule chore.time_period]
    by_cases hlt : inst.due_date.day < now.day <;> simp [hlt]
  · intro hlk hst
    have h1 : lookup (update_chore_instances st now) k = some inst := by
      unfold update_chore_instances
      exact lookup_fold_overdue now st.chores st.chore_instances k inst hst hlk
    have hni : inst.status ≠ .inactive := by
      rw [hst]
      intro hcon
      cases hcon
    unfold tick
    rw [lookup_check_activated]
    simp only [h1, Option.map_some']
    rw [activate_one_of_not_inactive _ _ _ _ hni]

/-- C7 witness: a tick three days later leaves the overdue dishes
instance exactly as it was. -/
theorem overdue_date_rule_witness :
    lookup (tick st_overdue ⟨3, 400⟩).1.chore_instances "dishes_0" = some inst_overdue :=
  (overdue_date_rule st_overdue ⟨3, 400⟩ "dishes_0" "dishes" chore_dishes inst_overdue).2.2
    (by decide) (by decide)

end ChoreNet
